import Mathlib

/-!
Verification development for the `reading-age` readability analyzer
(`plugin.js`, the `ReadingAge` object).  Every definition below is a
shallow embedding of the corresponding JavaScript function, translated
line by line from the source.  JavaScript numbers are modelled by `JSNum`:
exact rational arithmetic together with the IEEE-754 special values
NaN / +Infinity / -Infinity, which is faithful for the division-by-zero
and NaN-propagation behaviour the analyzer relies on (the analyzer only
divides nonnegative integer counts and combines the quotients with
affine rational operations).
-/

namespace ReadingAge

/-- ASCII letter test, the JS character class `[A-Za-z]`. -/
def isAsciiLetter (c : Char) : Bool :=
  (65 ≤ c.toNat && c.toNat ≤ 90) || (97 ≤ c.toNat && c.toNat ≤ 122)

/-- The JS whitespace class `\s`:
tab, LF, VT, FF, CR, space, NBSP, and the Unicode space characters. -/
def isWhitespaceJS (c : Char) : Bool :=
  let n := c.toNat
  n = 32 || (9 ≤ n && n ≤ 13) || n = 160 || n = 5760 ||
    (8192 ≤ n && n ≤ 8202) || n = 8232 || n = 8233 || n = 8239 ||
    n = 8287 || n = 12288 || n = 65279

/-- The JS character class `[aeiouy]` used by the syllable heuristic. -/
def isVowel (c : Char) : Bool :=
  c == 'a' || c == 'e' || c == 'i' || c == 'o' || c == 'u' || c == 'y'

/-- Sentence terminators `.`, `!`, `?`. -/
def isTerminator (c : Char) : Bool :=
  c == '.' || c == '!' || c == '?'

/-- A JavaScript number, as the analyzer needs it: NaN, the two
infinities, or a finite value (modelled as an exact rational). -/
inductive JSNum where
  | nan : JSNum
  | inf : JSNum
  | ninf : JSNum
  | fin : ℚ → JSNum
deriving DecidableEq, Repr

namespace JSNum

/-- `true` exactly on finite (non-NaN, non-infinite) values. -/
def isFin : JSNum → Bool
  | .fin _ => true
  | _ => false

end JSNum

/-- JS division of two nonnegative integer counts:
`0/0` is NaN, `n/0` is +Infinity for `n > 0`, otherwise exact. -/
def jsDivNat (a b : Nat) : JSNum :=
  if b = 0 then (if a = 0 then .nan else .inf) else .fin ((a : ℚ) / (b : ℚ))

/-- Multiplication by a finite constant, with IEEE special-value rules. -/
def jsMulC (c : ℚ) (x : JSNum) : JSNum :=
  match x with
  | .nan => .nan
  | .inf => if 0 < c then .inf else if c < 0 then .ninf else .nan
  | .ninf => if 0 < c then .ninf else if c < 0 then .inf else .nan
  | .fin q => .fin (c * q)

/-- JS addition with IEEE special-value rules
(NaN propagates, opposite infinities give NaN). -/
def jsAdd : JSNum → JSNum → JSNum
  | .nan, _ => .nan
  | _, .nan => .nan
  | .inf, .ninf => .nan
  | .ninf, .inf => .nan
  | .inf, _ => .inf
  | _, .inf => .inf
  | .ninf, _ => .ninf
  | _, .ninf => .ninf
  | .fin a, .fin b => .fin (a + b)

/-- JS subtraction with IEEE special-value rules (NaN propagates,
like infinities give NaN, an infinity dominates a finite value). -/
def jsSub : JSNum → JSNum → JSNum
  | .nan, _ => .nan
  | _, .nan => .nan
  | .inf, .inf => .nan
  | .ninf, .ninf => .nan
  | .inf, _ => .inf
  | _, .inf => .ninf
  | .ninf, _ => .ninf
  | _, .ninf => .inf
  | .fin a, .fin b => .fin (a - b)

/-- `x > 0` as JS evaluates it (false on NaN). -/
def jsGtZero : JSNum → Bool
  | .nan => false
  | .inf => true
  | .ninf => false
  | .fin q => decide (0 < q)

/-- `x >= y` as JS evaluates it (false whenever either side is NaN). -/
def jsGe : JSNum → JSNum → Bool
  | .nan, _ => false
  | _, .nan => false
  | .inf, _ => true
  | _, .inf => false
  | _, .ninf => true
  | .ninf, _ => false
  | .fin a, .fin b => decide (b ≤ a)

/-- `str.replace("\n", " ")`: a string pattern replaces only the FIRST
occurrence. -/
def replaceFirstNewline : List Char → List Char
  | [] => []
  | c :: cs => if c = '\n' then ' ' :: cs else c :: replaceFirstNewline cs

/-- `ReadingAge.trimNonLetters`: replace the first newline by a space,
then strip the leading run (`/^[^A-Za-z]+/g`) and the trailing run
(`/[^A-Za-z]+$/g`) of non-letters. -/
def trimNonLetters (str : String) : String :=
  let l1 := replaceFirstNewline str.data
  let l2 := l1.dropWhile (fun c => !isAsciiLetter c)
  let l3 := (l2.reverse.dropWhile (fun c => !isAsciiLetter c)).reverse
  ⟨l3⟩

/-- Digits of a decimal numeral folded into a `Nat`. -/
def digitsToNat (l : List Char) : Nat :=
  l.foldl (fun n c => n * 10 + (c.toNat - 48)) 0

/-- A JavaScript *array index*: property access `ary[s]` for a string `s`
reads an element exactly when `s` is the canonical decimal numeral of
some `n < 2^32 - 1` (all digits, no leading zero except `"0"` itself);
for every other string it reads an (absent) plain property, yielding
`undefined`. -/
def canonicalIndex (s : String) : Option Nat :=
  match s.data with
  | [] => none
  | c :: cs =>
    if (c :: cs).all (fun d => d.isDigit) && (s.data = ['0'] || !(c = '0')) then
      let n := digitsToNat s.data
      if n < 4294967295 then some n else none
    else none

/-- `ReadingAge.trimNonLettersFromArray`, including its bug: the source is
`ary.forEach(function (i) { if (typeof ary[i] === "string") { ary[i] = … } })`
where `i` is the element VALUE, not the index.  So `ary[i]` indexes the
array with the word itself: `undefined` (skipped) unless the word happens
to be a canonical numeric string, in which case the element at THAT
position gets trimmed.  `forEach` visits the original indices in order
and reads the current (possibly already mutated) element. -/
def trimNonLettersFromArray (ary : List String) : List String :=
  (List.range ary.length).foldl
    (fun a k =>
      match canonicalIndex (a.getD k "") with
      | some j => if j < a.length then a.set j (trimNonLetters (a.getD j "")) else a
      | none => a)
    ary

/-- `ReadingAge.findFirstEmptyWord`: index of the first entry with no
ASCII letter (`search(/[A-Za-z]/) === -1`), `none` for the JS `-1`. -/
def findFirstEmptyWord : List String → Option Nat
  | [] => none
  | w :: ws =>
    if w.data.any isAsciiLetter then (findFirstEmptyWord ws).map (· + 1)
    else some 0

/-- The do/while loop of `removeEmptyWords`; each iteration splices out
one element, so `ary.length` steps of fuel always suffice. -/
def removeEmptyWordsGo : Nat → List String → List String
  | 0, ary => ary
  | fuel + 1, ary =>
    match findFirstEmptyWord ary with
    | none => ary
    | some p => removeEmptyWordsGo fuel (ary.eraseIdx p)

/-- `ReadingAge.removeEmptyWords`: repeatedly remove the first entry
without letters until none is found. -/
def removeEmptyWords (ary : List String) : List String :=
  removeEmptyWordsGo ary.length ary

/-- `text.split(" ")`: split at every single space character. -/
def splitOnSpaceGo : List Char → List Char → List (List Char)
  | [], cur => [cur.reverse]
  | c :: cs, cur => if c = ' ' then cur.reverse :: splitOnSpaceGo cs [] else splitOnSpaceGo cs (c :: cur)

/-- `text.split(" ")` on the character list of the text. -/
def splitOnSpace (l : List Char) : List (List Char) :=
  splitOnSpaceGo l []

/-- `text.replace(/\n+/g, " ")`: every maximal newline run becomes one
space.  The boolean records whether we are inside a newline run. -/
def collapseNewlinesGo : List Char → Bool → List Char
  | [], _ => []
  | c :: cs, inRun =>
    if c = '\n' then
      if inRun then collapseNewlinesGo cs true else ' ' :: collapseNewlinesGo cs true
    else c :: collapseNewlinesGo cs false

/-- `text.replace(/\n+/g, " ")`. -/
def collapseNewlines (l : List Char) : List Char :=
  collapseNewlinesGo l false

/-- `ReadingAge.getWords`.  Note that the source line
`text.replace(/\s+/g, " ")` discards its result (a no-op, preserved as
such), and that `trimNonLettersFromArray` is the buggy value-as-index
version above. -/
def getWords (text : String) : List String :=
  if text.length = 0 then []
  else
    let collapsed := collapseNewlines text.data
    let words := (splitOnSpace collapsed).map (fun cs => (⟨cs⟩ : String))
    removeEmptyWords (trimNonLettersFromArray words)

/-- The global matches of `/\(?[^\.\?\!]+[\.!\?]\)?/g`.  Since `(` is
itself a non-terminator, the optional `\(?` never changes a match span,
so each match is: a maximal nonempty run of non-terminators, one
terminator, and a following `)` when present.  Characters that cannot
start a match (stray terminators) are skipped.  Fuel decreases once per
step while the text shrinks by at least one character, so fuel equal to
the length of the text suffices. -/
def sentMatches : Nat → List Char → List (List Char)
  | 0, _ => []
  | _ + 1, [] => []
  | fuel + 1, c :: cs =>
    if isTerminator c then sentMatches fuel cs
    else
      let body := (c :: cs).takeWhile (fun x => !isTerminator x)
      match (c :: cs).dropWhile (fun x => !isTerminator x) with
      | [] => []
      | t :: rest =>
        match rest with
        | ')' :: rest2 => (body ++ [t, ')']) :: sentMatches fuel rest2
        | _ => (body ++ [t]) :: sentMatches fuel rest

/-- The final-fragment match `/\(?[^\.\?\!]+$/g`: the maximal trailing
run of non-terminators, when nonempty. -/
def sentFinal (l : List Char) : Option (List Char) :=
  let trail := (l.reverse.takeWhile (fun x => !isTerminator x)).reverse
  if trail.isEmpty then none else some trail

/-- `ReadingAge.getSentences`: newline collapse, the global terminator
matches, then the unterminated final fragment appended when present. -/
def getSentences (text : String) : List String :=
  if text.length = 0 then []
  else
    let l := collapseNewlines text.data
    let ms := (sentMatches l.length l).map (fun cs => (⟨cs⟩ : String))
    match sentFinal l with
    | none => ms
    | some f => ms ++ [(⟨f⟩ : String)]

/-- `word.lastIndexOf('le') === word.length - 2`: the word ends in `le`. -/
def endsInLe (l : List Char) : Bool :=
  match l.reverse with
  | e :: le :: _ => e == 'e' && le == 'l'
  | _ => false

/-- `word.replace(/(es|ed|e)$/, "")`: a single (non-global) replacement.
A match must end at the end of the word, so it removes the final `es` or
`ed`, otherwise a final bare `e`, when one is present. -/
def stripSuffix (l : List Char) : List Char :=
  match l.reverse with
  | c1 :: c2 :: rest =>
    if c2 == 'e' && (c1 == 's' || c1 == 'd') then rest.reverse
    else if c1 == 'e' then (c2 :: rest).reverse
    else l
  | [c1] => if c1 == 'e' then [] else l
  | [] => l

/-- `word.replace(/[aeiouy]+/g, "a")`: every maximal vowel run becomes a
single `a`.  The boolean records whether we are inside a vowel run. -/
def collapseVowelRuns : List Char → Bool → List Char
  | [], _ => []
  | c :: cs, inRun =>
    if isVowel c then
      if inRun then collapseVowelRuns cs true else 'a' :: collapseVowelRuns cs true
    else c :: collapseVowelRuns cs false

/-- `word.match(/[aeiouy]/g)` on the collapsed word: the number of
vowels left, i.e. the number of maximal vowel runs (0 when the match is
`null`). -/
def countVowelRuns (l : List Char) : Nat :=
  (collapseVowelRuns l false).countP (fun c => isVowel c)

/-- `ReadingAge.getNumSyllablesInWord`.  Throws (modelled as `.error`)
on the empty string and on strings containing JS whitespace; words of
length at most three are one syllable; otherwise lower-case, strip a
final `es`/`ed`/`e` unless the word ends in `le`, and count vowel runs. -/
def getNumSyllablesInWord (word : String) : Except String Nat :=
  if word.length = 0 then .error "Empty string."
  else if word.data.any isWhitespaceJS then .error "Contains whitespace."
  else if word.length ≤ 3 then .ok 1
  else
    let w := word.data.map Char.toLower
    let w2 := if endsInLe w then w else stripSuffix w
    .ok (countVowelRuns w2)

/-- `ReadingAge.getNumSyllablesPerWord`: push each successful estimate;
a thrown estimation error is caught, logged, and the word is skipped. -/
def getNumSyllablesPerWord (aryOfWords : List String) : List Nat :=
  aryOfWords.foldl
    (fun acc w =>
      match getNumSyllablesInWord w with
      | .ok n => acc ++ [n]
      | .error _ => acc)
    []

/-- `ReadingAge.getComplexWordPositions`: indices whose syllable count
is at least 3. -/
def getComplexWordPositions (aryOfNumSyllables : List Nat) : List Nat :=
  aryOfNumSyllables.enum.filterMap (fun p => if 3 ≤ p.2 then some p.1 else none)

/-- `ReadingAge.getComplexWords`: the words at the given positions (all
calls pass in-range positions; JS would yield `undefined` otherwise,
modelled by the `""` default). -/
def getComplexWords (aryOfWords : List String) (positions : List Nat) : List String :=
  positions.map (fun i => aryOfWords.getD i "")

/-- `ReadingAge.arrayAdd`: sum of a numeric array (every element of a
syllable array is a number, so the `typeof` guard never skips). -/
def arrayAdd (ary : List Nat) : Nat :=
  ary.foldl (· + ·) 0

/-- The record built by `ReadingAge.parseText`.  The `smogIndex` field of
the source involves `Math.sqrt`, an irrational; no claim mentions it and
it is omitted from the embedding. -/
structure ParseResult where
  source : String
  sentences : List String
  numSentences : Nat
  words : List String
  numWords : Nat
  syllables : List Nat
  numSyllables : Nat
  complexWordPositions : List Nat
  numComplexWords : Nat
  complexWords : List String
  averageWordsPerSentence : JSNum
  averageSyllablesPerWord : JSNum
  complexWordRatio : JSNum
  complexWordsPerSentence : JSNum
  fleschKincaidReadingEase : JSNum
  fleschKincaidGradeLevel : JSNum
  gunningFogIndex : JSNum
deriving DecidableEq, Repr

/-- `ReadingAge.parseText`.  The derived ratios are plain divisions
(no zero-denominator guard) and the indices use the source constants
`206.835, 1.015, 84.6`, `0.39, 11.8, 15.59`, `0.4, 100`. -/
def parseText (text : String) : ParseResult :=
  let sentences := getSentences text
  let numSentences := sentences.length
  let words := getWords text
  let numWords := words.length
  let syllables := getNumSyllablesPerWord words
  let numSyllables := arrayAdd syllables
  let cwp := getComplexWordPositions syllables
  let numComplexWords := cwp.length
  let complexWords := getComplexWords words cwp
  let awps := jsDivNat numWords numSentences
  let aspw := jsDivNat numSyllables numWords
  let cwr := jsDivNat numComplexWords numWords
  let cwps := jsDivNat numComplexWords numSentences
  { source := text
    sentences := sentences
    numSentences := numSentences
    words := words
    numWords := numWords
    syllables := syllables
    numSyllables := numSyllables
    complexWordPositions := cwp
    numComplexWords := numComplexWords
    complexWords := complexWords
    averageWordsPerSentence := awps
    averageSyllablesPerWord := aspw
    complexWordRatio := cwr
    complexWordsPerSentence := cwps
    fleschKincaidReadingEase :=
      jsSub (jsSub (.fin (206835 / 1000)) (jsMulC (1015 / 1000) awps)) (jsMulC (846 / 10) aspw)
    fleschKincaidGradeLevel :=
      jsSub (jsAdd (jsMulC (39 / 100) awps) (jsMulC (59 / 5) aspw)) (.fin (1559 / 100))
    gunningFogIndex := jsMulC (4 / 10) (jsAdd awps (jsMulC 100 cwr)) }

/-- `ReadingAge.sortFleschKincaidGradeLevelDescending` as the stable-sort
"may stay before" relation: per ES `SortCompare`, `a` stays before `b`
unless the comparator `b.fleschKincaidGradeLevel -
a.fleschKincaidGradeLevel` is positive (a NaN comparator value counts
as `+0`, i.e. a tie). -/
def fkglLe (a b : ParseResult) : Bool :=
  !(jsGtZero (jsSub b.fleschKincaidGradeLevel a.fleschKincaidGradeLevel))

/-- One step of a stable sort: insert `x` before the first element it
may stay before. -/
def insertSorted (le : α → α → Bool) (x : α) : List α → List α
  | [] => [x]
  | y :: ys => if le x y then x :: y :: ys else y :: insertSorted le x ys

/-- Stable sort (insertion sort), modelling `Array.prototype.sort`,
which ES2019 requires to be stable. -/
def insertionSort (le : α → α → Bool) : List α → List α
  | [] => []
  | x :: xs => insertSorted le x (insertionSort le xs)

/-- The record built by `ReadingAge.deepParseText`: the whole-passage
result plus the per-sentence results sorted by descending grade level.
(The source's try/catch rethrows, and `parseText` never throws on a
string, so the loop is total.) -/
structure DeepParseResult where
  result : ParseResult
  parsedSentences : List ParseResult
deriving DecidableEq, Repr

/-- `ReadingAge.deepParseText`. -/
def deepParseText (text : String) : DeepParseResult :=
  let r := parseText text
  let ps := r.sentences.map parseText
  { result := r
    parsedSentences := insertionSort fkglLe ps }

/-! ### Unfolding lemmas for the fields of `parseText` -/

theorem parseText_sentences (text : String) :
    (parseText text).sentences = getSentences text := rfl

theorem parseText_numSentences (text : String) :
    (parseText text).numSentences = (getSentences text).length := rfl

theorem parseText_words (text : String) :
    (parseText text).words = getWords text := rfl

theorem parseText_numWords (text : String) :
    (parseText text).numWords = (getWords text).length := rfl

theorem parseText_syllables (text : String) :
    (parseText text).syllables = getNumSyllablesPerWord (getWords text) := rfl

theorem parseText_numSyllables (text : String) :
    (parseText text).numSyllables = arrayAdd (getNumSyllablesPerWord (getWords text)) := rfl

theorem parseText_awps (text : String) :
    (parseText text).averageWordsPerSentence =
      jsDivNat (getWords text).length (getSentences text).length := rfl

theorem parseText_aspw (text : String) :
    (parseText text).averageSyllablesPerWord =
      jsDivNat (arrayAdd (getNumSyllablesPerWord (getWords text))) (getWords text).length := rfl

theorem parseText_cwr (text : String) :
    (parseText text).complexWordRatio =
      jsDivNat (getComplexWordPositions (getNumSyllablesPerWord (getWords text))).length
        (getWords text).length := rfl

theorem parseText_cwps (text : String) :
    (parseText text).complexWordsPerSentence =
      jsDivNat (getComplexWordPositions (getNumSyllablesPerWord (getWords text))).length
        (getSentences text).length := rfl

theorem deepParseText_parsedSentences (text : String) :
    (deepParseText text).parsedSentences =
      insertionSort fkglLe ((getSentences text).map parseText) := rfl

theorem parseText_fkgl (text : String) :
    (parseText text).fleschKincaidGradeLevel =
      jsSub
        (jsAdd
          (jsMulC (39 / 100) (jsDivNat (getWords text).length (getSentences text).length))
          (jsMulC (59 / 5)
            (jsDivNat (arrayAdd (getNumSyllablesPerWord (getWords text)))
              (getWords text).length)))
        (.fin (1559 / 100)) := rfl

/-! ### Basic facts about `JSNum` -/

theorem jsDivNat_one (n : Nat) : jsDivNat n 1 = .fin (n : ℚ) := by
  simp [jsDivNat]

theorem jsDivNat_zero_den (n : Nat) :
    jsDivNat n 0 = JSNum.nan ∨ jsDivNat n 0 = JSNum.inf := by
  by_cases h : n = 0 <;> simp [jsDivNat, h]

theorem jsDivNat_zero_zero : jsDivNat 0 0 = JSNum.nan := rfl

theorem jsSub_nan_left (x : JSNum) : jsSub JSNum.nan x = JSNum.nan := by
  cases x <;> rfl

theorem jsGe_nan_right (x : JSNum) : jsGe x JSNum.nan = false := by
  cases x <;> rfl

/-- Subtracting a value from itself never yields a positive result
(finite differences vanish, NaN and like infinities give NaN). -/
theorem jsGtZero_jsSub_self (x : JSNum) : jsGtZero (jsSub x x) = false := by
  cases x <;> simp [jsSub, jsGtZero]

/-- Records with equal grade level are ties for the sort comparator. -/
theorem fkglLe_of_eq {a b : ParseResult}
    (h : a.fleschKincaidGradeLevel = b.fleschKincaidGradeLevel) : fkglLe a b = true := by
  simp [fkglLe, h, jsGtZero_jsSub_self]

/-- The comparator ordering is total: when `a` may not stay before `b`,
`b` may stay before `a`. -/
theorem fkglLe_total (a b : ParseResult) (h : fkglLe a b = false) : fkglLe b a = true := by
  unfold fkglLe at h ⊢
  generalize ha : a.fleschKincaidGradeLevel = x at h ⊢
  generalize hb : b.fleschKincaidGradeLevel = y at h ⊢
  cases x <;> cases y <;> simp_all [jsSub, jsGtZero] <;> linarith

/-- On finite values the "may stay before" relation is exactly
non-increasing grade level. -/
theorem fkglLe_fin {a b : ParseResult} {qa qb : ℚ}
    (ha : a.fleschKincaidGradeLevel = .fin qa) (hb : b.fleschKincaidGradeLevel = .fin qb) :
    fkglLe a b = jsGe a.fleschKincaidGradeLevel b.fleschKincaidGradeLevel := by
  simp only [fkglLe, ha, hb, jsSub, jsGtZero, jsGe]
  by_cases h : qb ≤ qa
  · have h2 : ¬ (0 : ℚ) < qb - qa := by linarith
    simp [h, h2]
  · have h2 : (0 : ℚ) < qb - qa := by linarith
    simp [h, h2]

/-! ### Stable-sort lemmas -/

theorem mem_insertSorted {le : α → α → Bool} {x z : α} :
    ∀ {l : List α}, z ∈ insertSorted le x l → z = x ∨ z ∈ l
  | [], h => by
    simp [insertSorted] at h
    exact Or.inl h
  | y :: ys, h => by
    simp only [insertSorted] at h
    by_cases hxy : le x y
    · rw [if_pos hxy] at h
      rcases List.mem_cons.mp h with h1 | h1
      · exact Or.inl h1
      · exact Or.inr h1
    · rw [if_neg hxy] at h
      rcases List.mem_cons.mp h with h1 | h1
      · exact Or.inr (h1 ▸ List.mem_cons_self _ _)
      · rcases mem_insertSorted h1 with h2 | h2
        · exact Or.inl h2
        · exact Or.inr (List.mem_cons_of_mem _ h2)

theorem mem_insertionSort {le : α → α → Bool} {z : α} :
    ∀ {l : List α}, z ∈ insertionSort le l → z ∈ l
  | [], h => by simp [insertionSort] at h
  | y :: ys, h => by
    have h' : z ∈ insertSorted le y (insertionSort le ys) := h
    rcases mem_insertSorted h' with h1 | h1
    · exact h1 ▸ List.mem_cons_self _ _
    · exact List.mem_cons_of_mem _ (mem_insertionSort h1)

/-- The head of an insertion is the inserted element or the old head. -/
theorem head?_insertSorted {le : α → α → Bool} {x b : α} :
    ∀ {l : List α}, (insertSorted le x l).head? = some b → b = x ∨ l.head? = some b
  | [] , h => by
    simp [insertSorted] at h
    exact Or.inl h.symm
  | y :: ys, h => by
    simp only [insertSorted] at h
    by_cases hxy : le x y
    · rw [if_pos hxy] at h
      exact Or.inl (Option.some_injective _ h).symm
    · rw [if_neg hxy] at h
      exact Or.inr h

/-- Inserting into a comparator-chained list keeps it chained, given
totality of the comparator relation. -/
theorem chain'_insertSorted {le : α → α → Bool}
    (total : ∀ a b, le a b = false → le b a = true) (x : α) :
    ∀ {l : List α}, List.Chain' (fun a b => le a b = true) l →
      List.Chain' (fun a b => le a b = true) (insertSorted le x l)
  | [], _ => List.chain'_singleton x
  | y :: ys, h => by
    simp only [insertSorted]
    by_cases hxy : le x y
    · rw [if_pos hxy]
      refine List.chain'_cons'.mpr ⟨?_, h⟩
      intro b hb
      simp only [List.head?_cons, Option.mem_some_iff] at hb
      subst hb
      exact hxy
    · rw [if_neg hxy]
      obtain ⟨hy, hys⟩ := List.chain'_cons'.mp h
      refine List.chain'_cons'.mpr ⟨?_, chain'_insertSorted total x hys⟩
      intro b hb
      rcases head?_insertSorted hb with rfl | hb2
      · exact total _ _ (by simpa using hxy)
      · exact hy b hb2

/-- The stable sort always produces a comparator-chained list. -/
theorem chain'_insertionSort {le : α → α → Bool}
    (total : ∀ a b, le a b = false → le b a = true) :
    ∀ l : List α, List.Chain' (fun a b => le a b = true) (insertionSort le l)
  | [] => List.chain'_nil
  | y :: ys => chain'_insertSorted total y (chain'_insertionSort total ys)

/-- Inserting an element satisfying `p` puts it in front of every other
element satisfying `p`, provided it ties with (or precedes) all of them. -/
theorem filter_insertSorted_pos {le : α → α → Bool} {p : α → Bool} {x : α}
    (hpx : p x = true) (hx : ∀ z, p z = true → le x z = true) :
    ∀ l : List α, (insertSorted le x l).filter p = x :: l.filter p
  | [] => by simp [insertSorted, hpx]
  | y :: ys => by
    simp only [insertSorted]
    by_cases hxy : le x y
    · rw [if_pos hxy]
      simp [List.filter_cons, hpx]
    · rw [if_neg hxy]
      have hpy : p y = false := by
        cases hy : p y
        · rfl
        · exact absurd (hx y hy) (by simp [hxy])
      simp [List.filter_cons, hpy, filter_insertSorted_pos hpx hx ys]

/-- Inserting an element that fails `p` does not change the `p`-filtered
subsequence. -/
theorem filter_insertSorted_neg {le : α → α → Bool} {p : α → Bool} {x : α}
    (hpx : p x = false) :
    ∀ l : List α, (insertSorted le x l).filter p = l.filter p
  | [] => by simp [insertSorted, hpx]
  | y :: ys => by
    simp only [insertSorted]
    by_cases hxy : le x y
    · rw [if_pos hxy]
      simp [List.filter_cons, hpx]
    · rw [if_neg hxy]
      simp [List.filter_cons, filter_insertSorted_neg hpx ys]

/-- Stability: the sort preserves the relative order of the elements of
any tie class (any `p` whose members pairwise tie under `le`). -/
theorem filter_insertionSort {le : α → α → Bool} {p : α → Bool}
    (hp : ∀ a b, p a = true → p b = true → le a b = true) :
    ∀ l : List α, (insertionSort le l).filter p = l.filter p
  | [] => rfl
  | y :: ys => by
    simp only [insertionSort]
    cases hpy : p y
    · rw [filter_insertSorted_neg hpy, filter_insertionSort hp ys]
      simp [List.filter_cons, hpy]
    · rw [filter_insertSorted_pos hpy (fun z hz => hp y z hpy hz),
        filter_insertionSort hp ys]
      simp [List.filter_cons, hpy]

/-! ### `removeEmptyWords` keeps exactly the entries with a letter -/

theorem findFirstEmptyWord_none {l : List String}
    (h : findFirstEmptyWord l = none) :
    l.filter (fun w => w.data.any isAsciiLetter) = l := by
  induction l with
  | nil => rfl
  | cons w ws ih =>
    simp only [findFirstEmptyWord] at h
    by_cases hw : w.data.any isAsciiLetter
    · rw [if_pos hw, Option.map_eq_none'] at h
      simp [List.filter_cons, hw, ih h]
    · rw [if_neg hw] at h
      cases h

theorem findFirstEmptyWord_some :
    ∀ {l : List String} {p : Nat}, findFirstEmptyWord l = some p →
      p < l.length ∧
        (l.eraseIdx p).filter (fun w => w.data.any isAsciiLetter) =
          l.filter (fun w => w.data.any isAsciiLetter)
  | [], p, h => by cases h
  | w :: ws, p, h => by
    simp only [findFirstEmptyWord] at h
    by_cases hw : w.data.any isAsciiLetter
    · rw [if_pos hw, Option.map_eq_some'] at h
      obtain ⟨q, hq, rfl⟩ := h
      obtain ⟨hlt, hfil⟩ := findFirstEmptyWord_some hq
      refine ⟨by simpa using hlt, ?_⟩
      simp [List.eraseIdx_cons_succ, List.filter_cons, hw, hfil]
    · rw [if_neg hw] at h
      cases h
      exact ⟨Nat.succ_pos _, by simp [List.eraseIdx_cons_zero, List.filter_cons, hw]⟩

theorem removeEmptyWordsGo_eq_filter :
    ∀ (fuel : Nat) (l : List String), l.length ≤ fuel →
      removeEmptyWordsGo fuel l = l.filter (fun w => w.data.any isAsciiLetter)
  | 0, l, h => by
    have hl : l = [] := List.length_eq_zero.mp (Nat.le_zero.mp h)
    subst hl; rfl
  | fuel + 1, l, h => by
    simp only [removeEmptyWordsGo]
    cases hf : findFirstEmptyWord l with
    | none => exact (findFirstEmptyWord_none hf).symm
    | some p =>
      obtain ⟨hp, hfil⟩ := findFirstEmptyWord_some hf
      have hlen : (l.eraseIdx p).length ≤ fuel := by
        rw [List.length_eraseIdx_of_lt hp]
        omega
      show removeEmptyWordsGo fuel (l.eraseIdx p) = _
      rw [removeEmptyWordsGo_eq_filter fuel _ hlen, hfil]

theorem removeEmptyWords_eq_filter (l : List String) :
    removeEmptyWords l = l.filter (fun w => w.data.any isAsciiLetter) :=
  removeEmptyWordsGo_eq_filter l.length l (Nat.le_refl _)

/-- Every word produced by `getWords` contains an ASCII letter. -/
theorem mem_getWords_hasLetter {text w : String} (h : w ∈ getWords text) :
    w.data.any isAsciiLetter = true := by
  by_cases ht : text.length = 0
  · simp [getWords, ht] at h
  · simp only [getWords, if_neg ht, removeEmptyWords_eq_filter] at h
    exact (List.mem_filter.mp h).2

/-! ### The syllable sequence is the sequence of successful estimates -/

theorem getNumSyllablesPerWord_aux (ws : List String) (acc : List Nat) :
    ws.foldl
        (fun acc w =>
          match getNumSyllablesInWord w with
          | .ok n => acc ++ [n]
          | .error _ => acc)
        acc
      = acc ++ ws.filterMap (fun w => (getNumSyllablesInWord w).toOption) := by
  induction ws generalizing acc with
  | nil => simp
  | cons w ws ih =>
    simp only [List.foldl_cons, List.filterMap_cons]
    cases hw : getNumSyllablesInWord w with
    | ok n =>
      rw [ih]
      simp [Except.toOption]
    | error e =>
      rw [ih]
      simp [Except.toOption]

theorem getNumSyllablesPerWord_eq (ws : List String) :
    getNumSyllablesPerWord ws =
      ws.filterMap (fun w => (getNumSyllablesInWord w).toOption) := by
  simpa [getNumSyllablesPerWord] using getNumSyllablesPerWord_aux ws []

theorem length_filterMap_eq {α β : Type _} {f : α → Option β} :
    ∀ {l : List α}, (∀ x ∈ l, (f x).isSome = true) →
      (l.filterMap f).length = l.length
  | [], _ => rfl
  | x :: xs, h => by
    cases hx : f x with
    | none =>
      exact absurd (h x (List.mem_cons_self _ _)) (by simp [hx])
    | some b =>
      simp only [List.filterMap_cons, hx, List.length_cons]
      rw [length_filterMap_eq (fun y hy => h y (List.mem_cons_of_mem _ hy))]

theorem length_data (s : String) : s.length = s.data.length := rfl

theorem length_ne_zero_of_hasLetter {w : String}
    (h : w.data.any isAsciiLetter = true) : w.length ≠ 0 := by
  intro h0
  rw [length_data] at h0
  rw [List.length_eq_zero.mp h0] at h
  simp at h

/-- Estimation succeeds on any nonempty word without JS whitespace. -/
theorem getNumSyllablesInWord_isSome {w : String} (hlen : w.length ≠ 0)
    (hws : w.data.any isWhitespaceJS = false) :
    (getNumSyllablesInWord w).toOption.isSome = true := by
  unfold getNumSyllablesInWord
  rw [if_neg hlen, if_neg (by simp [hws])]
  split <;> rfl

/-! ### `trimNonLetters` facts -/

theorem replaceFirstNewline_eq_self :
    ∀ {l : List Char}, '\n' ∉ l → replaceFirstNewline l = l
  | [], _ => rfl
  | c :: cs, h => by
    simp only [replaceFirstNewline]
    have hc : ¬ c = '\n' := fun hc => h (by rw [← hc]; exact List.mem_cons_self _ _)
    rw [if_neg hc, replaceFirstNewline_eq_self (fun hm => h (List.mem_cons_of_mem _ hm))]

theorem dropWhile_head_false {α : Type _} {p : α → Bool} :
    ∀ {l : List α} {c : α} {t : List α}, l.dropWhile p = c :: t → p c = false
  | [], c, t, h => by simp [List.dropWhile] at h
  | a :: as, c, t, h => by
    rw [List.dropWhile_cons] at h
    by_cases ha : p a
    · rw [if_pos ha] at h
      exact dropWhile_head_false h
    · rw [if_neg ha] at h
      injection h with h1 h2
      subst h1
      simpa using ha

theorem dropWhile_idem {α : Type _} {p : α → Bool} (l : List α) :
    (l.dropWhile p).dropWhile p = l.dropWhile p := by
  cases h : l.dropWhile p with
  | nil => rfl
  | cons c t =>
    rw [List.dropWhile_cons, if_neg (by simp [dropWhile_head_false h])]

/-- Dropping a trailing run leaves a prefix of the original list. -/
theorem rev_dropWhile_rev_append {α : Type _} (p : α → Bool) (l : List α) :
    ∃ u, (l.reverse.dropWhile p).reverse ++ u = l := by
  obtain ⟨t, ht⟩ := List.dropWhile_suffix (l := l.reverse) p
  exact ⟨t.reverse, by rw [← List.reverse_append, ht, List.reverse_reverse]⟩

/-! ### Sentence extraction facts -/

theorem collapseNewlines_ne_nil {l : List Char} (h : l ≠ []) :
    collapseNewlines l ≠ [] := by
  cases l with
  | nil => exact absurd rfl h
  | cons c cs =>
    simp only [collapseNewlines, collapseNewlinesGo]
    by_cases hc : c = '\n'
    · simp [hc]
    · simp [hc]

theorem mem_collapseNewlinesGo :
    ∀ {l : List Char} {b : Bool} {c : Char},
      c ∈ collapseNewlinesGo l b → c = ' ' ∨ c ∈ l
  | [], b, c, h => by simp [collapseNewlinesGo] at h
  | a :: as, b, c, h => by
    simp only [collapseNewlinesGo] at h
    by_cases ha : a = '\n'
    · rw [if_pos ha] at h
      cases b with
      | true =>
        rcases mem_collapseNewlinesGo h with h2 | h2
        · exact Or.inl h2
        · exact Or.inr (List.mem_cons_of_mem _ h2)
      | false =>
        rcases List.mem_cons.mp h with h2 | h2
        · exact Or.inl h2
        · rcases mem_collapseNewlinesGo h2 with h3 | h3
          · exact Or.inl h3
          · exact Or.inr (List.mem_cons_of_mem _ h3)
    · rw [if_neg ha] at h
      rcases List.mem_cons.mp h with h2 | h2
      · exact Or.inr (h2 ▸ List.mem_cons_self _ _)
      · rcases mem_collapseNewlinesGo h2 with h3 | h3
        · exact Or.inl h3
        · exact Or.inr (List.mem_cons_of_mem _ h3)

theorem noTerm_collapse {l : List Char} (h : ∀ c ∈ l, isTerminator c = false) :
    ∀ c ∈ collapseNewlines l, isTerminator c = false := by
  intro c hc
  rcases mem_collapseNewlinesGo hc with rfl | hc2
  · rfl
  · exact h c hc2

theorem sentMatches_eq_nil {l : List Char}
    (h : ∀ c ∈ l, isTerminator c = false) :
    ∀ fuel, sentMatches fuel l = []
  | 0 => rfl
  | fuel + 1 => by
    cases l with
    | nil => rfl
    | cons c cs =>
      simp only [sentMatches]
      rw [if_neg (by simp [h c (List.mem_cons_self _ _)])]
      have hd : (c :: cs).dropWhile (fun x => !isTerminator x) = [] :=
        List.dropWhile_eq_nil_iff.mpr (fun x hx => by simp [h x hx])
      simp [hd]

theorem takeWhile_all {α : Type _} {p : α → Bool} {l : List α}
    (h : ∀ x ∈ l, p x = true) : l.takeWhile p = l :=
  List.takeWhile_eq_self_iff.mpr h

theorem sentFinal_noTerm {l : List Char} (hne : l ≠ [])
    (h : ∀ c ∈ l, isTerminator c = false) : sentFinal l = some l := by
  have htw : l.reverse.takeWhile (fun x => !isTerminator x) = l.reverse :=
    takeWhile_all (fun x hx => by simp [h x (List.mem_reverse.mp hx)])
  simp only [sentFinal, htw, List.reverse_reverse]
  rw [if_neg]
  simp [List.isEmpty_iff, hne]

theorem data_ne_nil_of_ne_empty {s : String} (h : s ≠ "") : s.data ≠ [] := by
  intro hd
  apply h
  cases s with
  | mk data =>
    cases hd
    rfl

/-- A nonempty text without sentence terminators is one single sentence:
its newline-collapsed self, captured by the final-fragment rule. -/
theorem getSentences_noTerm {text : String} (hne : text.data ≠ [])
    (h : ∀ c ∈ text.data, isTerminator c = false) :
    getSentences text = [(⟨collapseNewlines text.data⟩ : String)] := by
  have hlen : ¬ text.length = 0 := by
    rw [length_data]
    intro h0
    exact hne (List.length_eq_zero.mp h0)
  simp only [getSentences, if_neg hlen,
    sentMatches_eq_nil (noTerm_collapse h) _,
    sentFinal_noTerm (collapseNewlines_ne_nil hne) (noTerm_collapse h)]
  rfl

/-! ### Suffix-stripping characterizations -/

theorem endsInLe_iff {l : List Char} : endsInLe l = true ↔ ['l', 'e'] <:+ l := by
  constructor
  · intro h
    unfold endsInLe at h
    cases hr : l.reverse with
    | nil => rw [hr] at h; cases h
    | cons e rest =>
      cases rest with
      | nil => rw [hr] at h; cases h
      | cons le rest2 =>
        rw [hr] at h
        simp only [Bool.and_eq_true, beq_iff_eq] at h
        obtain ⟨he, hle⟩ := h
        have hl : l = rest2.reverse ++ ['l', 'e'] := by
          have h2 := congrArg List.reverse hr
          rw [List.reverse_reverse] at h2
          rw [h2, he, hle]
          simp
        exact ⟨rest2.reverse, hl.symm⟩
  · rintro ⟨t, rfl⟩
    unfold endsInLe
    rw [List.reverse_append]
    simp

theorem stripSuffix_es {l t : List Char} (h : l = t ++ ['e', 's']) :
    stripSuffix l = t := by
  subst h
  unfold stripSuffix
  rw [List.reverse_append]
  simp

theorem stripSuffix_ed {l t : List Char} (h : l = t ++ ['e', 'd']) :
    stripSuffix l = t := by
  subst h
  unfold stripSuffix
  rw [List.reverse_append]
  simp

theorem stripSuffix_e {l t : List Char} (h : l = t ++ ['e']) :
    stripSuffix l = t := by
  subst h
  unfold stripSuffix
  rw [List.reverse_append]
  cases htr : t.reverse with
  | nil =>
    rw [List.reverse_eq_nil_iff.mp htr]
    rfl
  | cons c2 rest =>
    show (if (c2 == 'e' && (('e' : Char) == 's' || ('e' : Char) == 'd')) then rest.reverse
      else if ('e' : Char) == 'e' then (c2 :: rest).reverse else t ++ ['e']) = t
    rw [if_neg (by simp), if_pos (by simp), ← htr, List.reverse_reverse]

theorem stripSuffix_none {l : List Char}
    (hs : ¬ ['e', 's'] <:+ l) (hd : ¬ ['e', 'd'] <:+ l) (he : ¬ ['e'] <:+ l) :
    stripSuffix l = l := by
  unfold stripSuffix
  cases hr : l.reverse with
  | nil => rfl
  | cons c1 rest =>
    have hl : l = (c1 :: rest).reverse := by rw [← hr, List.reverse_reverse]
    cases rest with
    | nil =>
      show (if c1 == 'e' then [] else l) = l
      rw [if_neg]
      intro hc
      apply he
      refine ⟨[], ?_⟩
      rw [hl]
      simp only [beq_iff_eq] at hc
      rw [hc]
      rfl
    | cons c2 rest2 =>
      show (if (c2 == 'e' && (c1 == 's' || c1 == 'd')) then rest2.reverse
        else if c1 == 'e' then (c2 :: rest2).reverse else l) = l
      rw [if_neg, if_neg]
      · intro hc1
        apply he
        simp only [beq_iff_eq] at hc1
        refine ⟨(c2 :: rest2).reverse, ?_⟩
        rw [hl, hc1]
        simp
      · intro hC
        simp only [Bool.and_eq_true, Bool.or_eq_true, beq_iff_eq] at hC
        obtain ⟨h2, h3⟩ := hC
        rcases h3 with h3 | h3
        · apply hs
          refine ⟨rest2.reverse, ?_⟩
          rw [hl, h2, h3]
          simp
        · apply hd
          refine ⟨rest2.reverse, ?_⟩
          rw [hl, h2, h3]
          simp

/-- Ends-with-two-letters as a `dropLast` decomposition. -/
theorem suffix2_decomp {a b : Char} {l : List Char} (h : [a, b] <:+ l) :
    l = l.dropLast.dropLast ++ [a, b] := by
  obtain ⟨t, rfl⟩ := h
  have h1 : (t ++ [a, b]).dropLast = t ++ [a] := by
    rw [show t ++ [a, b] = (t ++ [a]) ++ [b] by simp, List.dropLast_concat]
  rw [h1, List.dropLast_concat]

/-- Ends-with-one-letter as a `dropLast` decomposition. -/
theorem suffix1_decomp {a : Char} {l : List Char} (h : [a] <:+ l) :
    l = l.dropLast ++ [a] := by
  obtain ⟨t, rfl⟩ := h
  rw [List.dropLast_concat]

/-! ### Remaining support lemmas -/

theorem arrayAdd_aux (l : List Nat) : ∀ n : Nat, l.foldl (· + ·) n = n + l.sum := by
  induction l with
  | nil => simp
  | cons x xs ih =>
    intro n
    simp only [List.foldl_cons, List.sum_cons, ih]
    omega

theorem arrayAdd_eq_sum (l : List Nat) : arrayAdd l = l.sum := by
  simpa [arrayAdd] using arrayAdd_aux l 0

theorem isFin_exists {x : JSNum} (h : x.isFin = true) : ∃ q, x = JSNum.fin q := by
  cases x with
  | nan => simp [JSNum.isFin] at h
  | inf => simp [JSNum.isFin] at h
  | ninf => simp [JSNum.isFin] at h
  | fin q => exact ⟨q, rfl⟩

/-- On a list of all-finite grade levels, a comparator chain is a
non-increasing grade-level chain. -/
theorem chain'_fkglLe_to_jsGe :
    ∀ {l : List ParseResult},
      (∀ r ∈ l, r.fleschKincaidGradeLevel.isFin = true) →
      List.Chain' (fun a b => fkglLe a b = true) l →
      List.Chain'
        (fun a b => jsGe a.fleschKincaidGradeLevel b.fleschKincaidGradeLevel = true) l
  | [], _, _ => List.chain'_nil
  | [a], _, _ => List.chain'_singleton a
  | a :: b :: t, hfin, hch => by
    obtain ⟨hab, hch2⟩ := List.chain'_cons.mp hch
    refine List.chain'_cons.mpr
      ⟨?_, chain'_fkglLe_to_jsGe (fun r hr => hfin r (List.mem_cons_of_mem _ hr)) hch2⟩
    obtain ⟨qa, hqa⟩ := isFin_exists (hfin a (List.mem_cons_self _ _))
    obtain ⟨qb, hqb⟩ :=
      isFin_exists (hfin b (List.mem_cons_of_mem _ (List.mem_cons_self _ _)))
    rw [← fkglLe_fin hqa hqb]
    exact hab

/-! ### Claim theorems -/

/-- C1: contrary to the claim (and to the source's own comments),
`getWords` does not strip leading/trailing non-letters from its tokens:
`trimNonLettersFromArray` indexes the array with each element's VALUE
instead of its index, so `getWords("Hello, world!")` keeps the attached
punctuation and returns `["Hello,", "world!"]`, not `["Hello", "world"]`. -/
theorem getWords_keeps_attached_punctuation :
    getWords "Hello, world!" = ["Hello,", "world!"] ∧
      getWords "Hello, world!" ≠ ["Hello", "world"] := by
  constructor
  · decide
  · decide

/-- C2 counterexample: for the input `"a\tb"` the single word contains a
tab, its syllable estimation throws and is skipped, so the claimed
invariant `len(words) == len(syllableCounts)` fails. -/
theorem parseText_syllable_length_counterexample :
    ¬ ((parseText "a\tb").words.length = (parseText "a\tb").syllables.length) := by
  decide

/-- C2 (amended): the syllable sequence is never longer than the word
sequence, and the two have equal length whenever no extracted word
contains JS whitespace (the only way estimation can fail, since every
extracted word contains a letter and hence is nonempty). -/
theorem parseText_syllable_lengths :
    ∀ text : String,
      (parseText text).syllables.length ≤ (parseText text).words.length ∧
      ((∀ w ∈ (parseText text).words, w.data.any isWhitespaceJS = false) →
        (parseText text).syllables.length = (parseText text).words.length) := by
  intro text
  rw [parseText_syllables, parseText_words, getNumSyllablesPerWord_eq]
  constructor
  · exact List.length_filterMap_le _ _
  · intro h
    refine length_filterMap_eq ?_
    intro w hw
    exact getNumSyllablesInWord_isSome
      (length_ne_zero_of_hasLetter (mem_getWords_hasLetter hw)) (h w hw)

/-- C2 witness. -/
theorem parseText_syllable_lengths_witness :
    (parseText "cat dog").syllables.length = (parseText "cat dog").words.length :=
  (parseText_syllable_lengths "cat dog").2 (by decide)

/-- C3 counterexample: `"Cat sat. 42."` yields a second sentence with no
words, whose grade level is NaN; NaN is incomparable, so the resulting
`parsedSentences` sequence is not non-increasing in grade level. -/
theorem deepParseText_unsorted_on_nan :
    ¬ List.Chain'
        (fun a b => jsGe a.fleschKincaidGradeLevel b.fleschKincaidGradeLevel = true)
        (deepParseText "Cat sat. 42.").parsedSentences := by
  intro hch
  have hb : (parseText " 42.").fleschKincaidGradeLevel = JSNum.nan := by
    rw [parseText_fkgl]
    have h1 : getWords " 42." = [] := by decide
    have h2 : (getSentences " 42.").length = 1 := by decide
    rw [h1, h2]
    rfl
  have hle : fkglLe (parseText "Cat sat.") (parseText " 42.") = true := by
    unfold fkglLe
    rw [hb, jsSub_nan_left]
    rfl
  have hps : (deepParseText "Cat sat. 42.").parsedSentences =
      [parseText "Cat sat.", parseText " 42."] := by
    rw [deepParseText_parsedSentences]
    have hsent : getSentences "Cat sat. 42." = ["Cat sat.", " 42."] := by decide
    rw [hsent]
    simp only [List.map_cons, List.map_nil, insertionSort, insertSorted]
    rw [if_pos hle]
  rw [hps] at hch
  obtain ⟨hab, -⟩ := List.chain'_cons.mp hch
  rw [hb, jsGe_nan_right] at hab
  simp at hab

/-- C3 (amended): `parsedSentences` is stably sorted under the JS
comparator, where a NaN comparator value counts as a tie.  Hence (i)
whenever every per-sentence record has a finite grade level (e.g. every
sentence has at least one word) the sequence is non-increasing in grade
level, and (ii) unconditionally, records with equal grade level keep
their original relative order. -/
theorem deepParseText_sorted_stable :
    ∀ text : String,
      ((∀ r ∈ (parseText text).sentences.map parseText,
          r.fleschKincaidGradeLevel.isFin = true) →
        List.Chain'
          (fun a b => jsGe a.fleschKincaidGradeLevel b.fleschKincaidGradeLevel = true)
          (deepParseText text).parsedSentences) ∧
      (∀ v : JSNum,
        (deepParseText text).parsedSentences.filter
            (fun r => decide (r.fleschKincaidGradeLevel = v)) =
          ((parseText text).sentences.map parseText).filter
            (fun r => decide (r.fleschKincaidGradeLevel = v))) := by
  intro text
  constructor
  · intro hfin
    rw [deepParseText_parsedSentences]
    rw [parseText_sentences] at hfin
    exact chain'_fkglLe_to_jsGe
      (fun r hr => hfin r (mem_insertionSort hr))
      (chain'_insertionSort fkglLe_total _)
  · intro v
    rw [deepParseText_parsedSentences, parseText_sentences]
    exact filter_insertionSort
      (fun a b ha hb =>
        fkglLe_of_eq ((of_decide_eq_true ha).trans (of_decide_eq_true hb).symm)) _

/-- C3 witness. -/
theorem deepParseText_sorted_stable_witness :
    List.Chain'
      (fun a b => jsGe a.fleschKincaidGradeLevel b.fleschKincaidGradeLevel = true)
      (deepParseText "Cat sat. Dog ran fast.").parsedSentences :=
  (deepParseText_sorted_stable "Cat sat. Dog ran fast.").1 (by decide)

/-- C4 counterexample: `trimNonLetters` replaces only the FIRST newline
by a space, so on `"a\n\nb"` a second application changes the result
again: it is not idempotent on all strings. -/
theorem trimNonLetters_not_idempotent :
    trimNonLetters (trimNonLetters "a\n\nb") ≠ trimNonLetters "a\n\nb" := by
  decide

/-- C4 (amended): `trimNonLetters` is idempotent on every string whose
trimmed result contains no newline (in particular on every
newline-free string); only an interior newline surviving into the
result breaks idempotence. -/
theorem trimNonLetters_idem :
    ∀ s : String, '\n' ∉ (trimNonLetters s).data →
      trimNonLetters (trimNonLetters s) = trimNonLetters s := by
  intro s hn
  have hdata : (trimNonLetters s).data =
      (((replaceFirstNewline s.data).dropWhile (fun c => !isAsciiLetter c)).reverse.dropWhile
        (fun c => !isAsciiLetter c)).reverse := rfl
  have h1 : replaceFirstNewline (trimNonLetters s).data = (trimNonLetters s).data :=
    replaceFirstNewline_eq_self hn
  have h2 : (trimNonLetters s).data.dropWhile (fun c => !isAsciiLetter c) =
      (trimNonLetters s).data := by
    cases hc : (trimNonLetters s).data with
    | nil => rfl
    | cons c t =>
      rw [List.dropWhile_cons, if_neg]
      obtain ⟨u, hu⟩ := rev_dropWhile_rev_append (fun c => !isAsciiLetter c)
        ((replaceFirstNewline s.data).dropWhile (fun c => !isAsciiLetter c))
      rw [← hdata, hc] at hu
      have hhead : (replaceFirstNewline s.data).dropWhile (fun c => !isAsciiLetter c) =
          c :: (t ++ u) := by
        rw [← hu]
        simp
      have hfalse := dropWhile_head_false hhead
      simp [hfalse]
  have h3 : ((trimNonLetters s).data.reverse.dropWhile (fun c => !isAsciiLetter c)).reverse =
      (trimNonLetters s).data := by
    rw [hdata, List.reverse_reverse, dropWhile_idem]
  calc trimNonLetters (trimNonLetters s)
      = ⟨(((replaceFirstNewline (trimNonLetters s).data).dropWhile
            (fun c => !isAsciiLetter c)).reverse.dropWhile
            (fun c => !isAsciiLetter c)).reverse⟩ := rfl
    _ = ⟨(((trimNonLetters s).data.dropWhile (fun c => !isAsciiLetter c)).reverse.dropWhile
            (fun c => !isAsciiLetter c)).reverse⟩ := by rw [h1]
    _ = ⟨((trimNonLetters s).data.reverse.dropWhile (fun c => !isAsciiLetter c)).reverse⟩ := by
          rw [h2]
    _ = ⟨(trimNonLetters s).data⟩ := by rw [h3]
    _ = trimNonLetters s := rfl

/-- C4 witness. -/
theorem trimNonLetters_idem_witness :
    trimNonLetters (trimNonLetters " a b ") = trimNonLetters " a b " :=
  trimNonLetters_idem " a b " (by decide)

/-- C5 counterexample: `"42."` is a zero-word (one-sentence) passage,
yet its average words per sentence is the plain number `0`, neither NaN
nor Infinity — so not all four listed ratios become NaN/Infinity on
every degenerate input. -/
theorem parseText_zero_words_plain_ratio :
    (parseText "42.").numWords = 0 ∧
      (parseText "42.").averageWordsPerSentence = JSNum.fin 0 ∧
      JSNum.fin 0 ≠ JSNum.nan ∧ JSNum.fin 0 ≠ JSNum.inf := by
  have h1 : (getWords "42.").length = 0 := by decide
  have h2 : (getSentences "42.").length = 1 := by decide
  refine ⟨by decide, ?_, by decide, by decide⟩
  rw [parseText_awps, h1, h2, jsDivNat_one]
  norm_num

/-- C5 (amended): a degenerate passage is not an error — `parseText` is
total — and each derived ratio whose denominator count is zero is NaN
(or Infinity when the numerator is positive): with zero words the
per-word ratios are NaN, with zero sentences the per-sentence ratios
are NaN or Infinity, and for the empty string all four ratios are NaN.
A ratio with a positive denominator may instead be an ordinary number. -/
theorem parseText_degenerate_ratios :
    ∀ text : String,
      ((parseText text).numWords = 0 →
        (parseText text).averageSyllablesPerWord = JSNum.nan ∧
        (parseText text).complexWordRatio = JSNum.nan) ∧
      ((parseText text).numSentences = 0 →
        ((parseText text).averageWordsPerSentence = JSNum.nan ∨
          (parseText text).averageWordsPerSentence = JSNum.inf) ∧
        ((parseText text).complexWordsPerSentence = JSNum.nan ∨
          (parseText text).complexWordsPerSentence = JSNum.inf)) ∧
      (parseText "").averageWordsPerSentence = JSNum.nan ∧
      (parseText "").averageSyllablesPerWord = JSNum.nan ∧
      (parseText "").complexWordRatio = JSNum.nan ∧
      (parseText "").complexWordsPerSentence = JSNum.nan := by
  intro text
  refine ⟨?_, ?_, by decide, by decide, by decide, by decide⟩
  · intro h0
    rw [parseText_numWords] at h0
    have hw : getWords text = [] := List.length_eq_zero.mp h0
    rw [parseText_aspw, parseText_cwr, hw]
    exact ⟨rfl, rfl⟩
  · intro h0
    rw [parseText_numSentences] at h0
    rw [parseText_awps, parseText_cwps, h0]
    exact ⟨jsDivNat_zero_den _, jsDivNat_zero_den _⟩

/-- C5 witness. -/
theorem parseText_degenerate_ratios_witness :
    (parseText "").numWords = 0 ∧
      (parseText "").averageSyllablesPerWord = JSNum.nan ∧
      (parseText "").complexWordRatio = JSNum.nan :=
  ⟨by decide, ((parseText_degenerate_ratios "").1 (by decide)).1,
    ((parseText_degenerate_ratios "").1 (by decide)).2⟩

/-- C6: a per-word syllable-estimation failure never aborts `parseText`
(which is total): the syllable sequence consists of exactly the
successful estimates in word order, the syllable total sums only those,
and concretely the whitespace word `"a\tb"` errors, is skipped, and the
passage `"a\tb cat"` still yields a complete result. -/
theorem parseText_skips_failing_words :
    (∀ text : String,
      (parseText text).syllables =
        (parseText text).words.filterMap (fun w => (getNumSyllablesInWord w).toOption) ∧
      (parseText text).numSyllables =
        ((parseText text).words.filterMap
          (fun w => (getNumSyllablesInWord w).toOption)).sum) ∧
    getNumSyllablesInWord "a\tb" = .error "Contains whitespace." ∧
    (parseText "a\tb cat").words = ["a\tb", "cat"] ∧
    (parseText "a\tb cat").syllables = [1] ∧
    (parseText "a\tb cat").numSyllables = 1 := by
  refine ⟨?_, rfl, by decide, by decide, by decide⟩
  intro text
  rw [parseText_syllables, parseText_words, parseText_numSyllables,
    getNumSyllablesPerWord_eq]
  exact ⟨rfl, arrayAdd_eq_sum _⟩

/-- C7 counterexample: the empty string has length at most 3 but the
estimator throws on it instead of returning 1. -/
theorem getNumSyllablesInWord_empty_short :
    "".length ≤ 3 ∧ getNumSyllablesInWord "" ≠ .ok 1 :=
  ⟨by decide, fun h => Except.noConfusion h⟩

/-- C7 (amended): every nonempty, whitespace-free string of length at
most three estimates to exactly one syllable (the short-circuit rule);
empty or whitespace-containing strings instead hit the validation
errors, which run first. -/
theorem getNumSyllablesInWord_short :
    ∀ w : String, w.length ≠ 0 → w.length ≤ 3 →
      w.data.any isWhitespaceJS = false → getNumSyllablesInWord w = .ok 1 := by
  intro w h0 h3 hws
  unfold getNumSyllablesInWord
  rw [if_neg h0, if_neg (by simp [hws]), if_pos h3]

/-- C7 witness. -/
theorem getNumSyllablesInWord_short_witness :
    getNumSyllablesInWord "cat" = .ok 1 :=
  getNumSyllablesInWord_short "cat" (by decide) (by decide) (by decide)

/-- C8: for words longer than three characters (nonempty,
whitespace-free), the estimator lower-cases the word and, unless it ends
in `le`, removes exactly one trailing suffix — `es`, else `ed`, else a
bare `e` — before counting vowel runs; `le`-ending words are exempt.
Concretely `little` gives 2 and `hoped` gives 1. -/
theorem getNumSyllablesInWord_suffix_rules :
    (∀ w : String, 3 < w.length → w.data.any isWhitespaceJS = false →
      ((['l', 'e'] <:+ w.data.map Char.toLower →
          getNumSyllablesInWord w = .ok (countVowelRuns (w.data.map Char.toLower))) ∧
        (¬ ['l', 'e'] <:+ w.data.map Char.toLower →
          ['e', 's'] <:+ w.data.map Char.toLower →
          getNumSyllablesInWord w =
            .ok (countVowelRuns ((w.data.map Char.toLower).dropLast.dropLast))) ∧
        (¬ ['l', 'e'] <:+ w.data.map Char.toLower →
          ['e', 'd'] <:+ w.data.map Char.toLower →
          getNumSyllablesInWord w =
            .ok (countVowelRuns ((w.data.map Char.toLower).dropLast.dropLast))) ∧
        (¬ ['l', 'e'] <:+ w.data.map Char.toLower →
          ¬ ['e', 's'] <:+ w.data.map Char.toLower →
          ¬ ['e', 'd'] <:+ w.data.map Char.toLower →
          ['e'] <:+ w.data.map Char.toLower →
          getNumSyllablesInWord w =
            .ok (countVowelRuns ((w.data.map Char.toLower).dropLast))) ∧
        (¬ ['l', 'e'] <:+ w.data.map Char.toLower →
          ¬ ['e', 's'] <:+ w.data.map Char.toLower →
          ¬ ['e', 'd'] <:+ w.data.map Char.toLower →
          ¬ ['e'] <:+ w.data.map Char.toLower →
          getNumSyllablesInWord w = .ok (countVowelRuns (w.data.map Char.toLower))))) ∧
    getNumSyllablesInWord "little" = .ok 2 ∧
    getNumSyllablesInWord "hoped" = .ok 1 := by
  refine ⟨?_, rfl, rfl⟩
  intro w h3 hws
  have h0 : ¬ w.length = 0 := by omega
  have hstep : getNumSyllablesInWord w =
      .ok (countVowelRuns
        (if endsInLe (w.data.map Char.toLower) then w.data.map Char.toLower
         else stripSuffix (w.data.map Char.toLower))) := by
    unfold getNumSyllablesInWord
    rw [if_neg h0, if_neg (by simp [hws]), if_neg (by omega)]
  refine ⟨?_, ?_, ?_, ?_, ?_⟩
  · intro hle
    rw [hstep, if_pos (endsInLe_iff.mpr hle)]
  · intro hle hes
    rw [hstep, if_neg (fun hc => hle (endsInLe_iff.mp hc)),
      stripSuffix_es (suffix2_decomp hes)]
  · intro hle hed
    rw [hstep, if_neg (fun hc => hle (endsInLe_iff.mp hc)),
      stripSuffix_ed (suffix2_decomp hed)]
  · intro hle hes hed hee
    rw [hstep, if_neg (fun hc => hle (endsInLe_iff.mp hc)),
      stripSuffix_e (suffix1_decomp hee)]
  · intro hle hes hed hee
    rw [hstep, if_neg (fun hc => hle (endsInLe_iff.mp hc)),
      stripSuffix_none hes hed hee]

/-- C8 witness. -/
theorem getNumSyllablesInWord_suffix_rules_witness :
    getNumSyllablesInWord "breathes" =
      .ok (countVowelRuns (("breathes".data.map Char.toLower).dropLast.dropLast)) :=
  ((getNumSyllablesInWord_suffix_rules.1 "breathes" (by decide) (by decide)).2.1)
    (by decide) (by decide)

/-- C9: a nonempty text with no `.`, `!` or `?` is captured whole as a
single final sentence, so `parseText` reports exactly one sentence and
an average words-per-sentence equal to the word count. -/
theorem parseText_no_terminator :
    ∀ text : String, text ≠ "" →
      (∀ c ∈ text.data, isTerminator c = false) →
      (parseText text).numSentences = 1 ∧
      (parseText text).averageWordsPerSentence =
        JSNum.fin ((parseText text).numWords : ℚ) := by
  intro text hne h
  have hs := getSentences_noTerm (data_ne_nil_of_ne_empty hne) h
  constructor
  · rw [parseText_numSentences, hs]
    rfl
  · rw [parseText_awps, parseText_numWords, hs]
    exact jsDivNat_one (getWords text).length

/-- C9 witness. -/
theorem parseText_no_terminator_witness :
    (parseText "cat dog").numSentences = 1 ∧
      (parseText "cat dog").averageWordsPerSentence =
        JSNum.fin ((parseText "cat dog").numWords : ℚ) :=
  parseText_no_terminator "cat dog" (by decide) (by decide)

end ReadingAge
